import Mathlib

/-!
Verification of the diagram mutation and streaming-assembly engine of
next-ai-draw-io: the completeness detector, the fragment assembler
(display_diagram / append_diagram tool handlers), the patch engine
(edit_diagram operations), the region reference resolver, and the
region payload cache.

The tool handlers are embedded from the source hook
(useDiagramToolHandlers).  The helpers isMxCellXmlComplete,
wrapWithMxFile and applyDiagramOperations are imported by the source
from a library file that is not part of the repository snapshot; those
are modelled from the specification (each such definition says so in
its doc comment).
-/

/-- Modelled from the spec: scanner state of the completeness detector
(section 4.2); the library function isMxCellXmlComplete is imported from
a file missing from the snapshot.  Tracks whether the scan position is
inside a quoted attribute value, inside an angle-bracket tag, whether the
current tag is a closing tag, whether the last significant character in
the tag was a slash (self-closing), and the open-tag depth counter. -/
structure ScanState where
  inQuote : Bool
  inTag : Bool
  isClosing : Bool
  justOpened : Bool
  lastWasSlash : Bool
  depth : Int
deriving DecidableEq, Repr

def ScanState.init : ScanState :=
  ⟨false, false, false, false, false, 0⟩

/-- Modelled from the spec: one step of the left-to-right scan of
section 4.2.  Inside a quote, characters are inert until the closing
quote; inside a tag, a quote opens a quoted value, a closing angle
bracket pops or pushes the depth counter depending on whether the tag
was a closing or self-closing tag; outside a tag, an opening angle
bracket starts a tag and everything else is inert text. -/
def scanChar (st : ScanState) (c : Char) : ScanState :=
  if st.inQuote then
    if c = '"' then { st with inQuote := false } else st
  else if st.inTag then
    if c = '"' then
      { st with inQuote := true, justOpened := false, lastWasSlash := false }
    else if c = '>' then
      let d := if st.isClosing then st.depth - 1
        else if st.lastWasSlash then st.depth
        else st.depth + 1
      { st with inTag := false, justOpened := false, lastWasSlash := false, depth := d }
    else if c = '/' then
      if st.justOpened then
        { st with isClosing := true, justOpened := false, lastWasSlash := true }
      else
        { st with lastWasSlash := true }
    else
      { st with justOpened := false, lastWasSlash := false }
  else
    if c = '<' then
      { st with inTag := true, isClosing := false, justOpened := true, lastWasSlash := false }
    else st

def scanXml (s : String) : ScanState :=
  s.data.foldl scanChar ScanState.init

/-- Modelled from the spec: the completeness detector (section 4.2).
The text is Complete iff scanning ends outside any quote, outside any
open angle bracket, and with the open-tag depth counter exactly zero. -/
def isMxCellXmlComplete (s : String) : Bool :=
  let st := scanXml s
  !st.inQuote && !st.inTag && st.depth == 0

/-- Modelled from the spec: the document wrapper (section 4.5) wraps a
flat cell sequence with the scaffold elements carrying the two reserved
root ids. -/
def wrapWithMxFile (inner : String) : String :=
  "<mxfile><diagram><mxGraphModel><root>" ++
    "<mxCell id=\"0\"/><mxCell id=\"1\" parent=\"0\"/>" ++
      inner ++ "</root></mxGraphModel></diagram></mxfile>"

/-- Embeds the JavaScript s.slice(-n): the last n characters of s, or
all of s when it is shorter. -/
def sliceLast (n : Nat) (s : String) : String :=
  ⟨s.data.drop (s.data.length - n)⟩

/-- Embeds the JavaScript xml.trim(): strip whitespace from both ends. -/
def strTrim (s : String) : String :=
  ⟨((s.data.dropWhile Char.isWhitespace).reverse.dropWhile Char.isWhitespace).reverse⟩

/-- Embeds the JavaScript s.startsWith(pre). -/
def strStartsWith (s pre : String) : Bool :=
  pre.data.isPrefixOf s.data

/-- From handleAppendDiagram: a continuation is a fresh start when the
trimmed text begins with a wrapper tag or with one of the two reserved
root-cell ids. -/
def isFreshStart (xml : String) : Bool :=
  let trimmed := strTrim xml
  strStartsWith trimmed "<mxGraphModel" ||
    strStartsWith trimmed "<root" ||
      strStartsWith trimmed "<mxfile" ||
        strStartsWith trimmed "<mxCell id=\"0\"" ||
          strStartsWith trimmed "<mxCell id=\"1\""

/-- Embeds dataUrl.replace of every semicolon with the percent-encoded
form "%3B" (a global regex replace in the source). -/
def encodeSemicolons (s : String) : String :=
  ⟨s.data.foldr (fun c acc => if c = ';' then '%' :: '3' :: 'B' :: acc else c :: acc) []⟩

/-- Embeds the JavaScript xml.replace(pat, repl) with a string pattern:
only the first occurrence of pat is replaced; when pat does not occur
the text is returned unchanged. -/
def replaceFirstList (pat repl : List Char) : List Char → List Char
  | [] => []
  | c :: rest =>
    if pat.isPrefixOf (c :: rest) then repl ++ List.drop pat.length (c :: rest)
    else c :: replaceFirstList pat repl rest

def replaceFirst (s pat repl : String) : String :=
  ⟨replaceFirstList pat.data repl.data s.data⟩

/-- The literal text that precedes a cache reference, from the regex
image=data:cache/([^/]+)/([^;"\s]+) of handleDisplayDiagram. -/
def cacheRefLead : List Char :=
  "image=data:cache/".data

/-- A character allowed in a region name by the regex character class
excluding semicolon, double quote and whitespace. -/
def isRegionChar (c : Char) : Bool :=
  !(c = ';' || c = '"' || c.isWhitespace)

/-- Embeds xml.matchAll over the cache-reference regex: scan left to
right; at a position where the literal lead matches, the key is the
maximal nonempty run without a slash, then a slash, then the region is
the maximal nonempty run of region characters; the scan resumes after
the match.  The fuel argument bounds the recursion and is instantiated
with the length of the text, which suffices since every step consumes
at least one character. -/
def findCacheRefsAux : Nat → List Char → List (String × String)
  | 0, _ => []
  | _, [] => []
  | fuel + 1, c :: rest =>
    if cacheRefLead.isPrefixOf (c :: rest) then
      let afterLead := List.drop cacheRefLead.length (c :: rest)
      let key := afterLead.takeWhile (fun ch => ch ≠ '/')
      match afterLead.dropWhile (fun ch => ch ≠ '/') with
      | '/' :: rest2 =>
        let region := rest2.takeWhile isRegionChar
        if !key.isEmpty && !region.isEmpty then
          (⟨key⟩, ⟨region⟩) :: findCacheRefsAux fuel (List.drop region.length rest2)
        else findCacheRefsAux fuel rest
      | _ => findCacheRefsAux fuel rest
    else findCacheRefsAux fuel rest

def findCacheRefs (xml : String) : List (String × String) :=
  findCacheRefsAux xml.data.length xml.data

/-- The region payload store visible to the client: a keyed mapping from
cache key to a mapping from region name to payload, as served by the
get-cached-regions endpoint. -/
structure RegionStore where
  entries : List (String × List (String × String))
deriving DecidableEq, Repr

def RegionStore.get (st : RegionStore) (k : String) : Option (List (String × String)) :=
  (st.entries.find? (fun p => p.1 == k)).map (fun p => p.2)

def lookupRegion (regions : List (String × String)) (name : String) : Option String :=
  (regions.find? (fun p => p.1 == name)).map (fun p => p.2)

def cacheSearchStr (key region : String) : String :=
  "image=data:cache/" ++ key ++ "/" ++ region

/-- One iteration of the inner replacement loop of handleDisplayDiagram:
a match whose key equals the cache key being processed and whose region
resolves to a non-empty payload is substituted by replacing the first
occurrence of the search string with image= followed by the
semicolon-encoded payload; any other match leaves the text unchanged. -/
def substituteMatch (regions : List (String × String)) (key : String)
    (xml : String) (m : String × String) : String :=
  if m.1 == key then
    match lookupRegion regions m.2 with
    | some payload =>
      if payload.isEmpty then xml
      else replaceFirst xml (cacheSearchStr key m.2) ("image=" ++ encodeSemicolons payload)
    | none => xml
  else xml

/-- Embeds the cache-resolution phase of handleDisplayDiagram: collect
the matches, group the cache keys preserving first-occurrence order,
and for each key found in the store substitute every match of that key
whose region name resolves; a key missing from the store (failed fetch)
leaves all its matches untouched and resolution continues with the
remaining keys. -/
def resolveCacheRefs (store : RegionStore) (xml : String) : String :=
  let ms := findCacheRefs xml
  let keys := (ms.map Prod.fst).eraseDups
  keys.foldl (fun x key =>
    match store.get key with
    | some regions => ms.foldl (substituteMatch regions key) x
    | none => x) xml

/-- Caller-visible outcome of one tool-handler call, recording which
addToolOutput call the handler made and the data embedded in its
message: truncated (display stored the partial and asked for
append_diagram), displayed (onDisplayChart accepted the wrapped
document), validationError (onDisplayChart rejected the wrapped
document), freshStartRejected and stillIncomplete (append_diagram
control signals quoting the resumption point). -/
inductive ToolOutput where
  | truncated (resumePoint : String)
  | displayed (doc : String)
  | validationError (doc : String) (err : String)
  | freshStartRejected (resumePoint : String)
  | stillIncomplete (resumePoint : String)
deriving DecidableEq, Repr

/-- Embeds handleDisplayDiagram: resolve cache references, then if the
text is incomplete store it as the partial buffer and signal
truncation quoting the last 500 characters; otherwise reset the buffer
to empty, wrap, and hand the wrapped document to onDisplayChart
(modelled by the validate parameter, returning some error text or
none).  Returns the new partial buffer and the outcome. -/
def handleDisplayDiagram (store : RegionStore) (validate : String → Option String)
    (xml0 : String) : String × ToolOutput :=
  let xml := resolveCacheRefs store xml0
  if !isMxCellXmlComplete xml then
    (xml, .truncated (sliceLast 500 xml))
  else
    let fullXml := wrapWithMxFile xml
    match validate fullXml with
    | some err => ("", .validationError fullXml err)
    | none => ("", .displayed fullXml)

/-- Embeds handleAppendDiagram: a fresh-start continuation is rejected
before touching the buffer; otherwise the continuation is appended, and
if the whole buffer is now complete the buffer is reset to empty before
wrapping and validation, else the handler stays accumulating and quotes
the resumption point.  Returns the new partial buffer and the outcome. -/
def handleAppendDiagram (validate : String → Option String)
    (buffer xml : String) : String × ToolOutput :=
  if isFreshStart xml then
    (buffer, .freshStartRejected (sliceLast 500 buffer))
  else
    let buf := buffer ++ xml
    if isMxCellXmlComplete buf then
      let fullXml := wrapWithMxFile buf
      match validate fullXml with
      | some err => ("", .validationError fullXml err)
      | none => ("", .displayed fullXml)
    else
      (buf, .stillIncomplete (sliceLast 500 buf))

/-- Runs a sequence of append_diagram calls from a given buffer,
collecting the outcome of each call and the final buffer. -/
def runAppends (validate : String → Option String) :
    String → List String → String × List ToolOutput
  | buffer, [] => (buffer, [])
  | buffer, f :: fs =>
    let r := handleAppendDiagram validate buffer f
    let rest := runAppends validate r.1 fs
    (rest.1, r.2 :: rest.2)

/-- Modelled from the spec: the kind of a diagram cell (section 3). -/
inductive CellKind where
  | vertex
  | edge
deriving DecidableEq, Repr

/-- Modelled from the spec: geometry sub-record of a cell (section 3). -/
structure Geometry where
  x : Int
  y : Int
  width : Int
  height : Int
  relative : Bool
deriving DecidableEq, Repr

/-- Modelled from the spec: one diagram element (section 3): an id, a
kind, a parent reference, for edges optional source and target
references, an attribute mapping and an optional geometry record. -/
structure Cell where
  id : String
  kind : CellKind
  parent : String
  source : Option String
  target : Option String
  attrs : List (String × String)
  geometry : Option Geometry
deriving DecidableEq, Repr

/-- One id-addressed edit operation.  Modelled from the spec (sections
3 and 4.4); the add and update payloads carry the parsed payload cell,
the tokenizer of section 4.1 being a separate component missing from
the snapshot. -/
inductive DiagramOperation where
  | add (cell_id : String) (payload : Cell)
  | update (cell_id : String) (payload : Cell)
  | delete (cell_id : String)
deriving DecidableEq, Repr

/-- Modelled from the spec: the per-operation diagnostic kinds of the
patch engine (sections 4.4 and 7). -/
inductive OpErrorKind where
  | DuplicateId
  | UnknownCell
  | MalformedFragment
deriving DecidableEq, Repr

/-- A per-operation diagnostic, carrying the kind and the offending
cell id (the source consumer reads fields named type and cellId). -/
structure OperationError where
  type : OpErrorKind
  cellId : String
deriving DecidableEq, Repr

def cellExists (doc : List Cell) (cid : String) : Bool :=
  doc.any (fun c => c.id == cid)

/-- Modelled from the spec: a cell is pulled into the delete cascade
when its parent is already in the delete set, or it is an edge one of
whose endpoints is already in the delete set (section 4.4). -/
def cellTriggered (s : List String) (c : Cell) : Bool :=
  s.contains c.parent ||
    (c.kind == CellKind.edge &&
      ((match c.source with | some x => s.contains x | none => false) ||
        (match c.target with | some x => s.contains x | none => false)))

/-- The ids of the newly triggered cells of one cascade round, without
duplicates. -/
def cascadeChunk (doc : List Cell) (s : List String) : List String :=
  ((doc.filter (fun c => !s.contains c.id && cellTriggered s c)).map
    (fun c => c.id)).dedup

/-- Modelled from the spec: one round of the cascade fixed point,
appending the ids of all newly triggered cells. -/
def cascadeStep (doc : List Cell) (s : List String) : List String :=
  s ++ cascadeChunk doc s

/-- Iterates the cascade step until no new ids are added, with fuel. -/
def cascadeIter (doc : List Cell) : Nat → List String → List String
  | 0, s => s
  | n + 1, s =>
    let s' := cascadeStep doc s
    if s'.length = s.length then s else cascadeIter doc n s'

/-- Modelled from the spec: the delete set of a cascade, the fixed
point of the cascade step starting from the target id (section 4.4).
Fuel one more than the document length always suffices. -/
def cascadeSet (doc : List Cell) (target : String) : List String :=
  cascadeIter doc (doc.length + 1) [target]

/-- Modelled from the spec: evaluation of a single operation against a
document (section 4.4): add fails DuplicateId on an existing id, update
and delete fail UnknownCell on a missing id, a payload whose own id
differs from cell_id is MalformedFragment, and delete removes the full
cascade of the target. -/
def applyOne (doc : List Cell) : DiagramOperation → List Cell × Option OperationError
  | .add cid payload =>
    if payload.id != cid then (doc, some ⟨.MalformedFragment, cid⟩)
    else if cellExists doc cid then (doc, some ⟨.DuplicateId, cid⟩)
    else (doc ++ [payload], none)
  | .update cid payload =>
    if payload.id != cid then (doc, some ⟨.MalformedFragment, cid⟩)
    else if cellExists doc cid then
      (doc.map (fun c => if c.id == cid then payload else c), none)
    else (doc, some ⟨.UnknownCell, cid⟩)
  | .delete cid =>
    if cellExists doc cid then
      let removed := cascadeSet doc cid
      (doc.filter (fun c => !removed.contains c.id), none)
    else (doc, some ⟨.UnknownCell, cid⟩)

/-- Evaluates a batch in order against a working copy, collecting one
diagnostic per failing operation while the working copy is left
untouched by the failing ones. -/
def evalBatch (doc : List Cell) : List DiagramOperation → List Cell × List OperationError
  | [] => (doc, [])
  | op :: ops =>
    let r := applyOne doc op
    let rest := evalBatch r.1 ops
    (rest.1, r.2.toList ++ rest.2)

/-- The number of operations of a batch that fail when evaluated in
order against the working copy. -/
def failCount (doc : List Cell) : List DiagramOperation → Nat
  | [] => 0
  | op :: ops =>
    let r := applyOne doc op
    (if r.2.isSome then 1 else 0) + failCount r.1 ops

/-- The result record of the patch engine, with the field names the
source destructures (result and errors). -/
structure ApplyResult where
  result : List Cell
  errors : List OperationError
deriving DecidableEq, Repr

/-- Modelled from the spec: the atomic patch engine (section 4.4).  The
batch is evaluated against a working copy; if any operation failed the
original document is returned unchanged together with the full list of
per-operation diagnostics, otherwise the edited document is returned
with no errors. -/
def applyDiagramOperations (doc : List Cell) (ops : List DiagramOperation) : ApplyResult :=
  let r := evalBatch doc ops
  if r.2.isEmpty then ⟨r.1, []⟩ else ⟨doc, r.2⟩

/-- The fixed time-to-live of a cached region mapping, from the
setTimeout delay in the extract_image_regions tool: ten minutes in
milliseconds. -/
def cacheTtlMs : Nat := 10 * 60 * 1000

/-- The server-side region payload cache together with the scheduled
expiry timers and the current time: extractedRegionsCache is the global
map, and timers records, for each insertion, the key and the absolute
time at which the scheduled deletion fires. -/
structure CacheSystem where
  now : Nat
  extractedRegionsCache : List (String × List (String × String))
  timers : List (String × Nat)
deriving DecidableEq, Repr

/-- Response of the get-cached-regions endpoint: the region mapping on
a hit, a not-found status otherwise. -/
inductive CacheResponse where
  | ok (regions : List (String × String))
  | notFound
deriving DecidableEq, Repr

/-- Embeds the POST handler of get-cached-regions: a pure lookup of the
cache key in the global map, returning the mapping or a not-found
response; the returned state is the input state, the handler never
mutates the cache. -/
def getCachedRegions (st : CacheSystem) (cacheKey : String) : CacheSystem × CacheResponse :=
  match st.extractedRegionsCache.find? (fun p => p.1 == cacheKey) with
  | some p => (st, .ok p.2)
  | none => (st, .notFound)

def hasCacheKey (st : CacheSystem) (cacheKey : String) : Bool :=
  st.extractedRegionsCache.any (fun p => p.1 == cacheKey)

/-- Events touching the region payload cache: an insert (the
extract_image_regions tool storing a mapping and scheduling its expiry
cacheTtlMs later), a read (the get-cached-regions endpoint), the clock
advancing, and a scheduled expiry firing. -/
inductive CacheEvent where
  | put (key : String) (regions : List (String × String))
  | get (key : String)
  | tick
  | expire (key : String) (scheduled : Nat)
deriving DecidableEq, Repr

/-- Transition of the cache system.  put appends the entry and
schedules a deletion timer at now plus cacheTtlMs; get is the pure read
of getCachedRegions; tick advances time; expire removes the entry for
its key, and fires only if it was scheduled and its time has come. -/
def cacheStep (st : CacheSystem) : CacheEvent → CacheSystem
  | .put key regions =>
    { st with
        extractedRegionsCache := st.extractedRegionsCache ++ [(key, regions)]
        timers := st.timers ++ [(key, st.now + cacheTtlMs)] }
  | .get key => (getCachedRegions st key).1
  | .tick => { st with now := st.now + 1 }
  | .expire key scheduled =>
    if st.timers.contains (key, scheduled) && scheduled ≤ st.now then
      { st with
          extractedRegionsCache := st.extractedRegionsCache.filter (fun p => p.1 != key)
          timers := st.timers.filter (fun p => p != (key, scheduled)) }
    else st

/-- Concatenation of a list of fragments in order. -/
def joinAll : List String → String
  | [] => ""
  | f :: fs => f ++ joinAll fs

/-- The ids carried by the cells of a document. -/
def idsOf (doc : List Cell) : List String :=
  doc.map (fun c => c.id)

/-- The closure condition of the cascade in the words of the spec: a
set of ids is closed when it absorbs every cell whose parent it
contains and every edge cell one of whose endpoints it contains. -/
def cascadeClosedUnder (doc : List Cell) (S : Set String) : Prop :=
  ∀ c ∈ doc,
    (c.parent ∈ S ∨
      (c.kind = CellKind.edge ∧
        ((∃ x, c.source = some x ∧ x ∈ S) ∨ (∃ x, c.target = some x ∧ x ∈ S)))) →
    c.id ∈ S

/-- Example vertex P of the cascade scenario of the spec. -/
def exCellP : Cell := ⟨"P", CellKind.vertex, "1", none, none, [], none⟩

/-- Example vertex C with parent P. -/
def exCellC : Cell := ⟨"C", CellKind.vertex, "P", none, none, [], none⟩

/-- Example edge E from C to X. -/
def exCellE : Cell := ⟨"E", CellKind.edge, "1", some "C", some "X", [], none⟩

/-- Example vertex X. -/
def exCellX : Cell := ⟨"X", CellKind.vertex, "1", none, none, [], none⟩

/-- The four-cell example document of the cascade scenario. -/
def exDocPCEX : List Cell := [exCellP, exCellC, exCellE, exCellX]

/-- A valid payload cell for an add operation. -/
def exCellN2 : Cell := ⟨"n2", CellKind.vertex, "1", none, none, [], none⟩

/-- A payload cell for an update of an id that does not exist. -/
def exCellGhost : Cell := ⟨"ghost", CellKind.vertex, "1", none, none, [], none⟩

/-- Example payload store holding one cache key with one region. -/
def exStore : RegionStore :=
  ⟨[("k1", [("r1", "data:image/png;base64,AA")])]⟩

/-- Example document text with two references to the same cache key,
one resolvable (region r1) and one not (region r2). -/
def exTwoRefXml : String :=
  "<mxCell id=\"a\" style=\"shape=image;image=data:cache/k1/r1;\" vertex=\"1\" parent=\"1\"/>" ++
    "<mxCell id=\"b\" style=\"shape=image;image=data:cache/k1/r2;\" vertex=\"1\" parent=\"1\"/>"

/-- The resolution of exTwoRefXml against exStore: the r1 reference is
substituted with the percent-encoded payload and the r2 reference is
left in place. -/
def exTwoRefResolved : String :=
  "<mxCell id=\"a\" style=\"shape=image;image=data:image/png%3Bbase64,AA;\" vertex=\"1\" parent=\"1\"/>" ++
    "<mxCell id=\"b\" style=\"shape=image;image=data:cache/k1/r2;\" vertex=\"1\" parent=\"1\"/>"

set_option maxRecDepth 8000

theorem list_contains_iff {α : Type} [BEq α] [LawfulBEq α] {l : List α} {x : α} :
    l.contains x = true ↔ x ∈ l := by
  unfold List.contains
  exact List.elem_iff

theorem getCachedRegions_state (st : CacheSystem) (k : String) :
    (getCachedRegions st k).1 = st := by
  unfold getCachedRegions
  cases st.extractedRegionsCache.find? (fun p => p.1 == k) <;> rfl

theorem evalBatch_errors_length (ops : List DiagramOperation) :
    ∀ doc : List Cell, ((evalBatch doc ops).2).length = failCount doc ops := by
  induction ops with
  | nil => intro doc; rfl
  | cons op ops ih =>
    intro doc
    simp only [evalBatch, failCount]
    cases h : (applyOne doc op).2 with
    | none => simp [h, ih]
    | some e =>
      simp [h, ih]
      omega

/-- C3: the completeness detector returns a result for every input
string, and the result is Complete exactly when the left-to-right scan
ends outside any quoted attribute value, outside any dangling open
angle bracket, and with the open-tag depth counter exactly zero; a
greater-than sign inside a quoted attribute value does not affect the
result, and the dangling-tag example is Incomplete. -/
theorem isMxCellXmlComplete_characterization :
    (∀ s : String, isMxCellXmlComplete s = true ↔
      ((scanXml s).inQuote = false ∧ (scanXml s).inTag = false ∧ (scanXml s).depth = 0)) ∧
    isMxCellXmlComplete "<cell id=\"a\" value=\"1>2\" vertex=\"1\" parent=\"1\"/>" = true ∧
    isMxCellXmlComplete "<cell id=\"a\" vertex=\"1\" parent=\"1\"/>" = true ∧
    isMxCellXmlComplete "<cell id=\"a\" vertex=\"1\" parent=\"1" = false := by
  refine ⟨fun s => ?_, by decide, by decide, by decide⟩
  unfold isMxCellXmlComplete
  simp [Bool.and_eq_true, Bool.not_eq_true']
  tauto

/-- C5: a continuation that begins with scaffold markers or a reserved
root id is rejected: the handler reports the fresh-start diagnostic
quoting the expected resumption point (the trailing slice of the
buffer) and returns the accumulated buffer exactly unchanged, the
rejected continuation not being appended. -/
theorem append_fresh_start_rejected :
    (∀ (validate : String → Option String) (buffer xml : String),
      isFreshStart xml = true →
      handleAppendDiagram validate buffer xml =
        (buffer, ToolOutput.freshStartRejected (sliceLast 500 buffer))) ∧
    handleAppendDiagram (fun _ => none) "<cell id=\"a\" vertex=\"1\"" "<mxGraphModel><root><mxCell id=\"0\"/>" =
      ("<cell id=\"a\" vertex=\"1\"", ToolOutput.freshStartRejected "<cell id=\"a\" vertex=\"1\"") := by
  constructor
  · intro validate buffer xml h
    simp [handleAppendDiagram, h]
  · rfl

/-- C10: whenever a display_diagram or append_diagram call reaches the
completion path, the pending partial buffer is reset to empty before
wrapping and validation, so the buffer is empty after any completed
assembly even when validation fails; a non-empty buffer occurs only
with an accumulating outcome (truncated for display_diagram,
still-incomplete or fresh-start-rejected for append_diagram). -/
theorem partial_buffer_reset_invariant :
    (∀ (store : RegionStore) (validate : String → Option String) (xml doc err : String),
      (handleDisplayDiagram store validate xml).2 = ToolOutput.validationError doc err →
      (handleDisplayDiagram store validate xml).1 = "") ∧
    (∀ (store : RegionStore) (validate : String → Option String) (xml doc : String),
      (handleDisplayDiagram store validate xml).2 = ToolOutput.displayed doc →
      (handleDisplayDiagram store validate xml).1 = "") ∧
    (∀ (validate : String → Option String) (buffer xml doc err : String),
      (handleAppendDiagram validate buffer xml).2 = ToolOutput.validationError doc err →
      (handleAppendDiagram validate buffer xml).1 = "") ∧
    (∀ (validate : String → Option String) (buffer xml doc : String),
      (handleAppendDiagram validate buffer xml).2 = ToolOutput.displayed doc →
      (handleAppendDiagram validate buffer xml).1 = "") ∧
    (∀ (store : RegionStore) (validate : String → Option String) (xml : String),
      (handleDisplayDiagram store validate xml).1 ≠ "" →
      ∃ r, (handleDisplayDiagram store validate xml).2 = ToolOutput.truncated r) ∧
    (∀ (validate : String → Option String) (buffer xml : String),
      (handleAppendDiagram validate buffer xml).1 ≠ "" →
      (∃ r, (handleAppendDiagram validate buffer xml).2 = ToolOutput.stillIncomplete r) ∨
        (∃ r, (handleAppendDiagram validate buffer xml).2 = ToolOutput.freshStartRejected r)) ∧
    handleAppendDiagram (fun _ => some "StructuralValidationFailed")
        "<cell id=\"a\"" " vertex=\"1\" parent=\"1\"/>" =
      ("", ToolOutput.validationError (wrapWithMxFile "<cell id=\"a\" vertex=\"1\" parent=\"1\"/>")
        "StructuralValidationFailed") := by
  refine ⟨?_, ?_, ?_, ?_, ?_, ?_, by rfl⟩
  · intro store validate xml doc err h
    cases hc : isMxCellXmlComplete (resolveCacheRefs store xml) <;>
      simp [handleDisplayDiagram, hc] at h ⊢
    cases hv : validate (wrapWithMxFile (resolveCacheRefs store xml)) <;> simp [hv] at h ⊢
  · intro store validate xml doc h
    cases hc : isMxCellXmlComplete (resolveCacheRefs store xml) <;>
      simp [handleDisplayDiagram, hc] at h ⊢
    cases hv : validate (wrapWithMxFile (resolveCacheRefs store xml)) <;> simp [hv] at h ⊢
  · intro validate buffer xml doc err h
    cases hf : isFreshStart xml <;> simp [handleAppendDiagram, hf] at h ⊢
    cases hc : isMxCellXmlComplete (buffer ++ xml) <;> simp [hc] at h ⊢
    cases hv : validate (wrapWithMxFile (buffer ++ xml)) <;> simp [hv] at h ⊢
  · intro validate buffer xml doc h
    cases hf : isFreshStart xml <;> simp [handleAppendDiagram, hf] at h ⊢
    cases hc : isMxCellXmlComplete (buffer ++ xml) <;> simp [hc] at h ⊢
    cases hv : validate (wrapWithMxFile (buffer ++ xml)) <;> simp [hv] at h ⊢
  · intro store validate xml h
    cases hc : isMxCellXmlComplete (resolveCacheRefs store xml) <;>
      simp [handleDisplayDiagram, hc] at h ⊢
    cases hv : validate (wrapWithMxFile (resolveCacheRefs store xml)) <;> simp [hv] at h
  · intro validate buffer xml h
    cases hf : isFreshStart xml <;> simp [handleAppendDiagram, hf] at h ⊢
    cases hc : isMxCellXmlComplete (buffer ++ xml) <;> simp [hc] at h ⊢
    cases hv : validate (wrapWithMxFile (buffer ++ xml)) <;> simp [hv] at h

/-- C1: the patch engine is atomic: whenever any operation of a batch
fails, the returned document is exactly the document before the call,
and the returned diagnostics carry one entry per failing operation
(not only the first); in particular the batch of a valid add followed
by an update of an unknown id leaves the document unchanged and
reports exactly one UnknownCell error. -/
theorem patch_engine_atomicity :
    (∀ (doc : List Cell) (ops : List DiagramOperation),
      (applyDiagramOperations doc ops).errors ≠ [] →
      (applyDiagramOperations doc ops).result = doc) ∧
    (∀ (doc : List Cell) (ops : List DiagramOperation),
      (applyDiagramOperations doc ops).errors ≠ [] →
      (applyDiagramOperations doc ops).errors.length = failCount doc ops) ∧
    applyDiagramOperations [exCellP]
        [DiagramOperation.add "n2" exCellN2, DiagramOperation.update "ghost" exCellGhost] =
      ⟨[exCellP], [⟨OpErrorKind.UnknownCell, "ghost"⟩]⟩ := by
  refine ⟨?_, ?_, by decide⟩
  · intro doc ops h
    by_cases he : (evalBatch doc ops).2.isEmpty
    · simp [applyDiagramOperations, he] at h
    · simp [applyDiagramOperations, he]
  · intro doc ops h
    by_cases he : (evalBatch doc ops).2.isEmpty
    · simp [applyDiagramOperations, he] at h
    · simp [applyDiagramOperations, he]
      exact evalBatch_errors_length ops doc

/-- C9: a read through the get-cached-regions endpoint never removes or
modifies the stored entry: the state after a get is the input state,
repeated reads of the same key return the same mapping, and the only
event that removes a present key is the scheduled expiry for that key,
which a put schedules at insertion time plus the fixed ten-minute
time-to-live. -/
theorem cache_read_pure_expiry_only :
    (∀ (st : CacheSystem) (k : String), (getCachedRegions st k).1 = st) ∧
    (∀ (st : CacheSystem) (k : String),
      (getCachedRegions (getCachedRegions st k).1 k).2 = (getCachedRegions st k).2) ∧
    (∀ (st : CacheSystem) (k : String), cacheStep st (CacheEvent.get k) = st) ∧
    (∀ (st : CacheSystem) (ev : CacheEvent) (k : String),
      hasCacheKey st k = true → hasCacheKey (cacheStep st ev) k = false →
      ∃ t, ev = CacheEvent.expire k t ∧ (k, t) ∈ st.timers ∧ t ≤ st.now) ∧
    (∀ (st : CacheSystem) (k : String) (regions : List (String × String)),
      (cacheStep st (CacheEvent.put k regions)).timers =
        st.timers ++ [(k, st.now + cacheTtlMs)]) ∧
    cacheTtlMs = 600000 := by
  refine ⟨getCachedRegions_state, ?_, ?_, ?_, fun st k regions => rfl, rfl⟩
  · intro st k
    rw [getCachedRegions_state]
  · intro st k
    show (getCachedRegions st k).1 = st
    exact getCachedRegions_state st k
  · intro st ev k h1 h2
    cases ev with
    | put key regions =>
      simp only [cacheStep, hasCacheKey] at h1 h2
      simp only [List.any_append] at h2
      simp [h1] at h2
    | get key =>
      rw [show cacheStep st (CacheEvent.get key) = st from getCachedRegions_state st key] at h2
      rw [h1] at h2
      exact absurd h2 (by simp)
    | tick =>
      simp only [cacheStep, hasCacheKey] at h1 h2
      rw [h1] at h2
      exact absurd h2 (by simp)
    | expire key t =>
      simp only [cacheStep] at h2
      by_cases hcond : (st.timers.contains (key, t) && decide (t ≤ st.now)) = true
      · rw [if_pos hcond] at h2
        simp only [hasCacheKey] at h1 h2
        obtain ⟨p, hp, hpk⟩ := List.any_eq_true.1 h1
        have hall := List.any_eq_false.1 h2
        have hpkey : p.1 = key := by
          by_contra hne
          exact hall p (List.mem_filter.2 ⟨hp, by simpa using hne⟩) hpk
        have hk : k = key := by
          have hpk' : p.1 = k := by simpa using hpk
          rw [← hpk', hpkey]
        rw [Bool.and_eq_true] at hcond
        obtain ⟨hmem, hle⟩ := hcond
        refine ⟨t, by rw [hk], ?_, by simpa using hle⟩
        rw [hk]
        exact list_contains_iff.1 hmem
      · rw [if_neg hcond] at h2
        rw [h1] at h2
        exact absurd h2 (by simp)

theorem cascadeChunk_spec (doc : List Cell) (s : List String) :
    ∀ x ∈ cascadeChunk doc s,
      x ∈ idsOf doc ∧ x ∉ s ∧ ∃ c ∈ doc, c.id = x ∧ cellTriggered s c = true := by
  intro x hx
  unfold cascadeChunk at hx
  rw [List.mem_dedup] at hx
  obtain ⟨c, hc, hcx⟩ := List.mem_map.1 hx
  rw [List.mem_filter] at hc
  obtain ⟨hcdoc, hcb⟩ := hc
  rw [Bool.and_eq_true] at hcb
  obtain ⟨hnc, htr⟩ := hcb
  subst hcx
  refine ⟨List.mem_map.2 ⟨c, hcdoc, rfl⟩, ?_, c, hcdoc, rfl, htr⟩
  intro hmem
  rw [Bool.not_eq_true'] at hnc
  have hcontra := list_contains_iff.2 hmem
  rw [hnc] at hcontra
  exact Bool.noConfusion hcontra

theorem cascadeStep_nodup (doc : List Cell) (s : List String) (h : s.Nodup) :
    (cascadeStep doc s).Nodup := by
  unfold cascadeStep
  refine List.Nodup.append h (List.nodup_dedup _) ?_
  intro a ha hb
  exact (cascadeChunk_spec doc s a hb).2.1 ha

theorem cascadeStep_subset (doc : List Cell) (target : String) (s : List String)
    (h : ∀ x ∈ s, x ∈ target :: idsOf doc) :
    ∀ x ∈ cascadeStep doc s, x ∈ target :: idsOf doc := by
  intro x hx
  unfold cascadeStep at hx
  rcases List.mem_append.1 hx with hxs | hxc
  · exact h x hxs
  · exact List.mem_cons_of_mem _ (cascadeChunk_spec doc s x hxc).1

theorem nodup_length_le (s U : List String) (hn : s.Nodup) (hs : ∀ x ∈ s, x ∈ U) :
    s.length ≤ U.length := by
  have h1 : s.toFinset.card = s.length := List.toFinset_card_of_nodup hn
  have h2 : s.toFinset ⊆ U.toFinset := by
    intro a ha
    rw [List.mem_toFinset] at ha ⊢
    exact hs a ha
  have h3 := Finset.card_le_card h2
  have h4 := List.toFinset_card_le U
  omega

theorem cascadeIter_stable (doc : List Cell) (target : String) :
    ∀ (n : Nat) (s : List String), s.Nodup → (∀ x ∈ s, x ∈ target :: idsOf doc) →
      (target :: idsOf doc).length < n + s.length →
      cascadeStep doc (cascadeIter doc n s) = cascadeIter doc n s := by
  intro n
  induction n with
  | zero =>
    intro s hn hsub hlt
    exact absurd (nodup_length_le s _ hn hsub) (by omega)
  | succ n ih =>
    intro s hn hsub hlt
    have hlen : (cascadeStep doc s).length = s.length + (cascadeChunk doc s).length := by
      unfold cascadeStep
      exact List.length_append _ _
    by_cases hst : (cascadeStep doc s).length = s.length
    · simp only [cascadeIter]
      rw [if_pos hst]
      have hz : (cascadeChunk doc s).length = 0 := by omega
      have hchunk : cascadeChunk doc s = [] := List.length_eq_zero.1 hz
      unfold cascadeStep
      rw [hchunk, List.append_nil]
    · simp only [cascadeIter]
      rw [if_neg hst]
      refine ih (cascadeStep doc s) (cascadeStep_nodup doc s hn)
        (cascadeStep_subset doc target s hsub) ?_
      omega

theorem cascadeSet_fixed (doc : List Cell) (target : String) :
    cascadeStep doc (cascadeSet doc target) = cascadeSet doc target := by
  unfold cascadeSet
  refine cascadeIter_stable doc target (doc.length + 1) [target]
    (List.nodup_singleton target) ?_ ?_
  · intro x hx
    rw [List.mem_singleton] at hx
    subst hx
    exact List.mem_cons_self _ _
  · simp only [List.length_cons, List.length_singleton]
    unfold idsOf
    rw [List.length_map]
    omega

theorem cascadeIter_extends (doc : List Cell) :
    ∀ (n : Nat) (s : List String) (x : String), x ∈ s → x ∈ cascadeIter doc n s := by
  intro n
  induction n with
  | zero => intro s x hx; exact hx
  | succ n ih =>
    intro s x hx
    by_cases hst : (cascadeStep doc s).length = s.length
    · simp only [cascadeIter]
      rw [if_pos hst]
      exact hx
    · simp only [cascadeIter]
      rw [if_neg hst]
      refine ih _ x ?_
      unfold cascadeStep
      exact List.mem_append_left _ hx

theorem cascadeSet_mem_target (doc : List Cell) (target : String) :
    target ∈ cascadeSet doc target :=
  cascadeIter_extends doc (doc.length + 1) [target] target (List.mem_singleton.2 rfl)

theorem cascadeSet_closed_bool (doc : List Cell) (target : String) (c : Cell)
    (hc : c ∈ doc) (htr : cellTriggered (cascadeSet doc target) c = true) :
    c.id ∈ cascadeSet doc target := by
  by_contra hno
  have hfix := cascadeSet_fixed doc target
  unfold cascadeStep at hfix
  have hchunk : cascadeChunk doc (cascadeSet doc target) = [] := by
    have hlenfix := congrArg List.length hfix
    rw [List.length_append] at hlenfix
    have hz : (cascadeChunk doc (cascadeSet doc target)).length = 0 := by omega
    exact List.length_eq_zero.1 hz
  have hcontains : (cascadeSet doc target).contains c.id = false := by
    cases hb : (cascadeSet doc target).contains c.id
    · rfl
    · exact absurd (list_contains_iff.1 hb) hno
  have hmem : c.id ∈ (doc.filter
      (fun d => !(cascadeSet doc target).contains d.id &&
        cellTriggered (cascadeSet doc target) d)).map (fun d => d.id) :=
    List.mem_map.2 ⟨c, List.mem_filter.2
      ⟨hc, by rw [Bool.and_eq_true]; exact ⟨by rw [hcontains]; rfl, htr⟩⟩, rfl⟩
  have hdedup : c.id ∈ cascadeChunk doc (cascadeSet doc target) := by
    unfold cascadeChunk
    exact List.mem_dedup.2 hmem
  rw [hchunk] at hdedup
  exact absurd hdedup (List.not_mem_nil _)

theorem cellTriggered_iff (s : List String) (c : Cell) :
    cellTriggered s c = true ↔
      (c.parent ∈ s ∨
        (c.kind = CellKind.edge ∧
          ((∃ x, c.source = some x ∧ x ∈ s) ∨ (∃ x, c.target = some x ∧ x ∈ s)))) := by
  unfold cellTriggered
  cases hs : c.source <;> cases ht : c.target <;>
    simp [list_contains_iff, beq_iff_eq, Bool.or_eq_true, Bool.and_eq_true]

theorem cellTriggered_mono {s : List String} {S : Set String}
    (hsub : ∀ x ∈ s, x ∈ S) (c : Cell) (h : cellTriggered s c = true) :
    c.parent ∈ S ∨
      (c.kind = CellKind.edge ∧
        ((∃ x, c.source = some x ∧ x ∈ S) ∨ (∃ x, c.target = some x ∧ x ∈ S))) := by
  rcases (cellTriggered_iff s c).1 h with hp | ⟨hk, hep⟩
  · exact Or.inl (hsub _ hp)
  · refine Or.inr ⟨hk, ?_⟩
    rcases hep with ⟨x, hx, hxs⟩ | ⟨x, hx, hxs⟩
    · exact Or.inl ⟨x, hx, hsub _ hxs⟩
    · exact Or.inr ⟨x, hx, hsub _ hxs⟩

theorem cascadeIter_least (doc : List Cell) (S : Set String)
    (hcl : cascadeClosedUnder doc S) :
    ∀ (n : Nat) (s : List String), (∀ x ∈ s, x ∈ S) →
      ∀ x ∈ cascadeIter doc n s, x ∈ S := by
  intro n
  induction n with
  | zero => intro s hs x hx; exact hs x hx
  | succ n ih =>
    intro s hs x hx
    by_cases hst : (cascadeStep doc s).length = s.length
    · simp only [cascadeIter] at hx
      rw [if_pos hst] at hx
      exact hs x hx
    · simp only [cascadeIter] at hx
      rw [if_neg hst] at hx
      refine ih (cascadeStep doc s) ?_ x hx
      intro y hy
      unfold cascadeStep at hy
      rcases List.mem_append.1 hy with hys | hyc
      · exact hs y hys
      · obtain ⟨_, _, c, hcdoc, hcid, htr⟩ := cascadeChunk_spec doc s y hyc
        subst hcid
        exact hcl c hcdoc (cellTriggered_mono hs c htr)

/-- C2: for a delete of an existing target, the set of removed cell
ids is the least fixed point containing the target id and closed under
adding every cell whose parent is in the set and every edge cell whose
source or target is in the set: the computed cascade contains the
target, is closed, is contained in every closed set containing the
target, and the delete removes exactly the cells whose id is in it; in
the P, C, E, X example the delete of P removes exactly P, C and E and
leaves X. -/
theorem delete_cascade_least_fixed_point :
    (∀ (doc : List Cell) (target : String), target ∈ cascadeSet doc target) ∧
    (∀ (doc : List Cell) (target : String) (c : Cell), c ∈ doc →
      (c.parent ∈ cascadeSet doc target ∨
        (c.kind = CellKind.edge ∧
          ((∃ x, c.source = some x ∧ x ∈ cascadeSet doc target) ∨
            (∃ x, c.target = some x ∧ x ∈ cascadeSet doc target)))) →
      c.id ∈ cascadeSet doc target) ∧
    (∀ (doc : List Cell) (target : String) (S : Set String),
      target ∈ S → cascadeClosedUnder doc S →
      ∀ x ∈ cascadeSet doc target, x ∈ S) ∧
    (∀ (doc : List Cell) (target : String),
      cellExists doc target = true →
      applyOne doc (DiagramOperation.delete target) =
        (doc.filter (fun c => !(cascadeSet doc target).contains c.id), none)) ∧
    cascadeSet exDocPCEX "P" = ["P", "C", "E"] ∧
    applyDiagramOperations exDocPCEX [DiagramOperation.delete "P"] = ⟨[exCellX], []⟩ := by
  refine ⟨cascadeSet_mem_target, ?_, ?_, ?_, by decide, by decide⟩
  · intro doc target c hc htr
    exact cascadeSet_closed_bool doc target c hc ((cellTriggered_iff _ c).2 htr)
  · intro doc target S hT hcl x hx
    refine cascadeIter_least doc S hcl (doc.length + 1) [target] ?_ x hx
    intro y hy
    rw [List.mem_singleton] at hy
    subst hy
    exact hT
  · intro doc target h
    simp [applyOne, h]

theorem foldl_resolve_none (ms : List (String × String)) :
    ∀ (keys : List String) (x : String),
      keys.foldl (fun x key =>
        match RegionStore.get ⟨[]⟩ key with
        | some regions => ms.foldl (substituteMatch regions key) x
        | none => x) x = x := by
  intro keys
  induction keys with
  | nil => intro x; rfl
  | cons k ks ih => intro x; exact ih x

theorem resolveCacheRefs_empty (xml : String) : resolveCacheRefs ⟨[]⟩ xml = xml :=
  foldl_resolve_none (findCacheRefs xml) ((findCacheRefs xml).map Prod.fst).eraseDups xml

theorem handleAppendDiagram_not_fresh_incomplete (validate : String → Option String)
    (buffer xml : String) (hf : isFreshStart xml = false)
    (hc : isMxCellXmlComplete (buffer ++ xml) = false) :
    handleAppendDiagram validate buffer xml =
      (buffer ++ xml, ToolOutput.stillIncomplete (sliceLast 500 (buffer ++ xml))) := by
  simp [handleAppendDiagram, hf, hc]

theorem handleAppendDiagram_not_fresh_complete (validate : String → Option String)
    (buffer xml : String) (hf : isFreshStart xml = false)
    (hc : isMxCellXmlComplete (buffer ++ xml) = true) :
    handleAppendDiagram validate buffer xml =
      (match validate (wrapWithMxFile (buffer ++ xml)) with
        | some err => ("", ToolOutput.validationError (wrapWithMxFile (buffer ++ xml)) err)
        | none => ("", ToolOutput.displayed (wrapWithMxFile (buffer ++ xml)))) := by
  simp only [handleAppendDiagram, hf, Bool.false_eq_true, if_false, hc, if_true]
theorem runAppends_assembles (validate : String → Option String) :
    ∀ (frags : List String) (buffer : String),
      frags ≠ [] →
      (∀ f ∈ frags, isFreshStart f = false) →
      (∀ k : Nat, k + 1 < frags.length →
        isMxCellXmlComplete (buffer ++ joinAll (frags.take (k + 1))) = false) →
      isMxCellXmlComplete (buffer ++ joinAll frags) = true →
      (runAppends validate buffer frags).1 = "" ∧
      (runAppends validate buffer frags).2.getLast? =
        some (handleDisplayDiagram ⟨[]⟩ validate (buffer ++ joinAll frags)).2 ∧
      ∀ o ∈ (runAppends validate buffer frags).2.dropLast,
        ∃ r, o = ToolOutput.stillIncomplete r := by
  intro frags
  induction frags with
  | nil => intro buffer hne; exact absurd rfl hne
  | cons f fs ih =>
    intro buffer _ hfresh hmid hdone
    have hf : isFreshStart f = false := hfresh f (List.mem_cons_self f fs)
    cases fs with
    | nil =>
      have hcomp : isMxCellXmlComplete (buffer ++ f) = true := by
        have hj : buffer ++ joinAll [f] = buffer ++ f := by
          show buffer ++ (f ++ "") = buffer ++ f
          rw [String.append_empty]
        rw [hj] at hdone
        exact hdone
      have happ := handleAppendDiagram_not_fresh_complete validate buffer f hf hcomp
      have hj : buffer ++ joinAll [f] = buffer ++ f := by
        show buffer ++ (f ++ "") = buffer ++ f
        rw [String.append_empty]
      have hdisp : (handleDisplayDiagram ⟨[]⟩ validate (buffer ++ joinAll [f])).2 =
          (handleAppendDiagram validate buffer f).2 := by
        rw [hj, happ]
        cases hv : validate (wrapWithMxFile (buffer ++ f)) <;>
          simp [handleDisplayDiagram, resolveCacheRefs_empty, hcomp, hv]
      refine ⟨?_, ?_, ?_⟩
      · show (handleAppendDiagram validate buffer f).1 = ""
        rw [happ]
        cases validate (wrapWithMxFile (buffer ++ f)) <;> rfl
      · show [(handleAppendDiagram validate buffer f).2].getLast? = _
        rw [List.getLast?_singleton, hdisp]
      · intro o ho
        exact absurd ho (List.not_mem_nil o)
    | cons g gs =>
      have hstill : isMxCellXmlComplete (buffer ++ f) = false := by
        have h0 := hmid 0 (by simp)
        have hj : buffer ++ joinAll ((f :: g :: gs).take 1) = buffer ++ f := by
          show buffer ++ (f ++ "") = buffer ++ f
          rw [String.append_empty]
        rw [hj] at h0
        exact h0
      have happ := handleAppendDiagram_not_fresh_incomplete validate buffer f hf hstill
      have hjoin : buffer ++ joinAll (f :: g :: gs) =
          (buffer ++ f) ++ joinAll (g :: gs) := by
        show buffer ++ (f ++ joinAll (g :: gs)) = _
        rw [String.append_assoc]
      have hrec := ih (buffer ++ f) (by simp)
        (fun x hx => hfresh x (List.mem_cons_of_mem f hx))
        (by
          intro k hk
          have hk2 : (k + 1) + 1 < (f :: g :: gs).length := by
            simp only [List.length_cons] at hk ⊢
            omega
          have hmidk := hmid (k + 1) hk2
          have hj2 : buffer ++ joinAll ((f :: g :: gs).take (k + 2)) =
              (buffer ++ f) ++ joinAll ((g :: gs).take (k + 1)) := by
            show buffer ++ (f ++ joinAll ((g :: gs).take (k + 1))) = _
            rw [String.append_assoc]
          rw [hj2] at hmidk
          exact hmidk)
        (by rw [hjoin] at hdone; exact hdone)
      obtain ⟨hb, hlast, hdrop⟩ := hrec
      have hrun : runAppends validate buffer (f :: g :: gs) =
          ((runAppends validate (buffer ++ f) (g :: gs)).1,
            ToolOutput.stillIncomplete (sliceLast 500 (buffer ++ f)) ::
              (runAppends validate (buffer ++ f) (g :: gs)).2) := by
        show ((runAppends validate (handleAppendDiagram validate buffer f).1 (g :: gs)).1,
          (handleAppendDiagram validate buffer f).2 ::
            (runAppends validate (handleAppendDiagram validate buffer f).1 (g :: gs)).2) = _
        rw [happ]
      have hne2 : (runAppends validate (buffer ++ f) (g :: gs)).2 ≠ [] := by
        intro hnil
        rw [hnil] at hlast
        exact Option.noConfusion hlast
      refine ⟨?_, ?_, ?_⟩
      · rw [hrun]
        exact hb
      · rw [hrun]
        show (ToolOutput.stillIncomplete (sliceLast 500 (buffer ++ f)) ::
          (runAppends validate (buffer ++ f) (g :: gs)).2).getLast? = _
        obtain ⟨o, os, heq⟩ : ∃ o os, (runAppends validate (buffer ++ f) (g :: gs)).2 = o :: os := by
          cases hcase : (runAppends validate (buffer ++ f) (g :: gs)).2 with
          | nil => exact absurd hcase hne2
          | cons o os => exact ⟨o, os, rfl⟩
        rw [heq, List.getLast?_cons_cons, ← heq, hlast, hjoin]
      · rw [hrun]
        intro o ho
        simp only at ho
        rw [List.dropLast_cons_of_ne_nil hne2] at ho
        rcases List.mem_cons.1 ho with hh | ht
        · exact ⟨sliceLast 500 (buffer ++ f), hh⟩
        · exact hdrop o ht

/-- C4: an incomplete first fragment followed by non-fresh-start
continuations whose accumulated buffer first becomes Complete at the
last continuation produces exactly one completion outcome, equal to
the outcome of processing the concatenated text directly as a single
complete fragment (all earlier rounds emit only still-incomplete
resume signals and the buffer ends empty); the spec example of the
split cell equals parsing the concatenation directly. -/
theorem assembler_equals_direct_parse :
    (∀ (validate : String → Option String) (frag0 : String) (frags : List String),
      isMxCellXmlComplete frag0 = false →
      frags ≠ [] →
      (∀ f ∈ frags, isFreshStart f = false) →
      (∀ k : Nat, k + 1 < frags.length →
        isMxCellXmlComplete (frag0 ++ joinAll (frags.take (k + 1))) = false) →
      isMxCellXmlComplete (frag0 ++ joinAll frags) = true →
      handleDisplayDiagram ⟨[]⟩ validate frag0 =
        (frag0, ToolOutput.truncated (sliceLast 500 frag0)) ∧
      (runAppends validate frag0 frags).1 = "" ∧
      (runAppends validate frag0 frags).2.getLast? =
        some (handleDisplayDiagram ⟨[]⟩ validate (frag0 ++ joinAll frags)).2 ∧
      ∀ o ∈ (runAppends validate frag0 frags).2.dropLast,
        ∃ r, o = ToolOutput.stillIncomplete r) ∧
    runAppends (fun _ => none) "<cell id=\"a\"" [" vertex=\"1\" parent=\"1\"/>"] =
      ("", [ToolOutput.displayed (wrapWithMxFile "<cell id=\"a\" vertex=\"1\" parent=\"1\"/>")]) ∧
    handleDisplayDiagram ⟨[]⟩ (fun _ => none) "<cell id=\"a\" vertex=\"1\" parent=\"1\"/>" =
      ("", ToolOutput.displayed (wrapWithMxFile "<cell id=\"a\" vertex=\"1\" parent=\"1\"/>")) := by
  refine ⟨?_, rfl, rfl⟩
  intro validate frag0 frags h0 hne hfresh hmid hdone
  have hdisp : handleDisplayDiagram ⟨[]⟩ validate frag0 =
      (frag0, ToolOutput.truncated (sliceLast 500 frag0)) := by
    simp [handleDisplayDiagram, resolveCacheRefs_empty, h0]
  exact ⟨hdisp, runAppends_assembles validate frags frag0 hne hfresh hmid hdone⟩

theorem runAppends_accumulates (validate : String → Option String) :
    ∀ (frags : List String) (buffer : String),
      (∀ f ∈ frags, isFreshStart f = false) →
      (∀ k : Nat, k < frags.length →
        isMxCellXmlComplete (buffer ++ joinAll (frags.take (k + 1))) = false) →
      (runAppends validate buffer frags).1 = buffer ++ joinAll frags ∧
      (runAppends validate buffer frags).2.length = frags.length ∧
      ∀ o ∈ (runAppends validate buffer frags).2, ∃ r, o = ToolOutput.stillIncomplete r := by
  intro frags
  induction frags with
  | nil =>
    intro buffer _ _
    refine ⟨?_, rfl, ?_⟩
    · show buffer = buffer ++ joinAll []
      rw [show joinAll [] = "" from rfl, String.append_empty]
    · intro o ho
      exact absurd ho (List.not_mem_nil o)
  | cons f fs ih =>
    intro buffer hfresh hmid
    have hf := hfresh f (List.mem_cons_self f fs)
    have hstill : isMxCellXmlComplete (buffer ++ f) = false := by
      have h0 := hmid 0 (by simp)
      have hj : buffer ++ joinAll ((f :: fs).take 1) = buffer ++ f := by
        show buffer ++ (f ++ "") = buffer ++ f
        rw [String.append_empty]
      rw [hj] at h0
      exact h0
    have happ := handleAppendDiagram_not_fresh_incomplete validate buffer f hf hstill
    have hjoin : buffer ++ joinAll (f :: fs) = (buffer ++ f) ++ joinAll fs := by
      show buffer ++ (f ++ joinAll fs) = _
      rw [String.append_assoc]
    have hrec := ih (buffer ++ f) (fun x hx => hfresh x (List.mem_cons_of_mem f hx))
      (by
        intro k hk
        have hmidk := hmid (k + 1) (by simp only [List.length_cons]; omega)
        have hj2 : buffer ++ joinAll ((f :: fs).take (k + 2)) =
            (buffer ++ f) ++ joinAll (fs.take (k + 1)) := by
          show buffer ++ (f ++ joinAll (fs.take (k + 1))) = _
          rw [String.append_assoc]
        rw [hj2] at hmidk
        exact hmidk)
    obtain ⟨hb, hlen, hall⟩ := hrec
    have hrun : runAppends validate buffer (f :: fs) =
        ((runAppends validate (buffer ++ f) fs).1,
          ToolOutput.stillIncomplete (sliceLast 500 (buffer ++ f)) ::
            (runAppends validate (buffer ++ f) fs).2) := by
      show ((runAppends validate (handleAppendDiagram validate buffer f).1 fs).1,
        (handleAppendDiagram validate buffer f).2 ::
          (runAppends validate (handleAppendDiagram validate buffer f).1 fs).2) = _
      rw [happ]
    refine ⟨?_, ?_, ?_⟩
    · rw [hrun, hjoin]
      exact hb
    · rw [hrun]
      simp only [List.length_cons]
      rw [hlen]
    · rw [hrun]
      intro o ho
      rcases List.mem_cons.1 ho with hh | ht
      · exact ⟨_, hh⟩
      · exact hall o ht

/-- C6 (amended): the append_diagram handler has no round counter: for
every number of non-fresh-start continuations that leave the buffer
incomplete, the assembler keeps accumulating (the buffer is the full
concatenation) and every round reports another still-incomplete resume
signal; no assembly-abandoned condition is ever produced, as the
eleven-round run shows. -/
theorem append_rounds_unbounded :
    (∀ (validate : String → Option String) (frags : List String) (buffer : String),
      (∀ f ∈ frags, isFreshStart f = false) →
      (∀ k : Nat, k < frags.length →
        isMxCellXmlComplete (buffer ++ joinAll (frags.take (k + 1))) = false) →
      (runAppends validate buffer frags).1 = buffer ++ joinAll frags ∧
      (runAppends validate buffer frags).2.length = frags.length ∧
      ∀ o ∈ (runAppends validate buffer frags).2, ∃ r, o = ToolOutput.stillIncomplete r) ∧
    (runAppends (fun _ => none) "<cell id=\"a\"" (List.replicate 11 " ")).2.length = 11 ∧
    ((runAppends (fun _ => none) "<cell id=\"a\"" (List.replicate 11 " ")).2.all
      (fun o => match o with
        | ToolOutput.stillIncomplete _ => true
        | _ => false)) = true := by
  refine ⟨fun validate frags buffer => runAppends_accumulates validate frags buffer, by decide, by decide⟩

/-- C6 counterexample: after eleven continuation rounds (beyond any
bound on the order of ten) the assembler is still accumulating: the
buffer has kept growing, all eleven outcomes are still-incomplete
resume signals, and no assembly-abandoned condition was surfaced. -/
theorem append_eleven_rounds_still_accumulating :
    (runAppends (fun _ => none) "<cell id=\"a\"" (List.replicate 11 " ")).1 =
      "<cell id=\"a\"           " ∧
    (runAppends (fun _ => none) "<cell id=\"a\"" (List.replicate 11 " ")).2.length = 11 ∧
    ((runAppends (fun _ => none) "<cell id=\"a\"" (List.replicate 11 " ")).2.all
      (fun o => match o with
        | ToolOutput.stillIncomplete _ => true
        | _ => false)) = true := by
  refine ⟨by decide, by decide, by decide⟩

theorem encode_aux_no_semi :
    ∀ l : List Char,
      ';' ∉ l.foldr (fun c acc => if c = ';' then '%' :: '3' :: 'B' :: acc else c :: acc) [] := by
  intro l
  induction l with
  | nil => simp
  | cons c rest ih =>
    by_cases hc : c = ';'
    · simp only [List.foldr_cons, if_pos hc]
      intro hmem
      rcases List.mem_cons.1 hmem with h | hmem2
      · exact absurd h (by decide)
      · rcases List.mem_cons.1 hmem2 with h | hmem3
        · exact absurd h (by decide)
        · rcases List.mem_cons.1 hmem3 with h | hmem4
          · exact absurd h (by decide)
          · exact ih hmem4
    · simp only [List.foldr_cons, if_neg hc]
      intro hmem
      rcases List.mem_cons.1 hmem with h | hmem2
      · exact hc h.symm
      · exact ih hmem2

theorem encodeSemicolons_no_semicolon (payload : String) :
    ';' ∉ (encodeSemicolons payload).data :=
  encode_aux_no_semi payload.data

theorem replaceFirstList_count (pat repl : List Char)
    (hp : pat.count ';' = 0) (hr : repl.count ';' = 0) :
    ∀ l : List Char, (replaceFirstList pat repl l).count ';' = l.count ';' := by
  intro l
  induction l with
  | nil => rfl
  | cons c rest ih =>
    by_cases h : pat.isPrefixOf (c :: rest) = true
    · obtain ⟨t, ht⟩ := List.isPrefixOf_iff_prefix.1 h
      have hd : List.drop pat.length (c :: rest) = t := by
        rw [← ht]
        exact List.drop_left pat t
      simp only [replaceFirstList, if_pos h]
      rw [hd, List.count_append]
      have hcr : (c :: rest).count ';' = pat.count ';' + t.count ';' := by
        rw [← ht, List.count_append]
      omega
    · simp only [replaceFirstList, if_neg h]
      rw [List.count_cons, List.count_cons, ih]

theorem replaceFirstList_at_first (pat repl : List Char) (hne : pat ≠ []) :
    ∀ (pre post : List Char),
      (∀ i, i < pre.length →
        pat.isPrefixOf (List.drop i (pre ++ pat ++ post)) = false) →
      replaceFirstList pat repl (pre ++ pat ++ post) = pre ++ repl ++ post := by
  intro pre
  induction pre with
  | nil =>
    intro post _
    cases hp : pat with
    | nil => exact absurd hp hne
    | cons p pt =>
      subst hp
      simp only [List.nil_append]
      rw [List.cons_append]
      simp only [replaceFirstList]
      rw [if_pos (by rw [← List.cons_append]; exact List.isPrefixOf_iff_prefix.2 (List.prefix_append _ post))]
      rw [← List.cons_append, List.drop_left]
  | cons a pre ih =>
    intro post hocc
    have h0 : pat.isPrefixOf (a :: (pre ++ pat ++ post)) = false := by
      have hh := hocc 0 (by simp)
      rw [List.cons_append, List.cons_append, List.drop_zero] at hh
      exact hh
    rw [List.cons_append, List.cons_append]
    simp only [replaceFirstList]
    rw [if_neg (by rw [h0]; exact Bool.false_ne_true)]
    rw [List.cons_append, List.cons_append]
    congr 1
    refine ih post ?_
    intro i hi
    have hh := hocc (i + 1) (by simp only [List.length_cons]; omega)
    rw [List.cons_append, List.cons_append, List.drop_succ_cons] at hh
    exact hh

theorem cacheSearchStr_ne_nil (key region : String) :
    (cacheSearchStr key region).data ≠ [] := by
  unfold cacheSearchStr
  rw [String.data_append, String.data_append, String.data_append]
  intro h
  rw [List.append_eq_nil, List.append_eq_nil, List.append_eq_nil] at h
  exact absurd h.1.1.1 (by decide)

theorem cacheSearchStr_count (key region : String)
    (hk : ';' ∉ key.data) (hr : ';' ∉ region.data) :
    (cacheSearchStr key region).data.count ';' = 0 := by
  unfold cacheSearchStr
  rw [String.data_append, String.data_append, String.data_append]
  rw [List.count_append, List.count_append, List.count_append]
  rw [List.count_eq_zero.2 hk, List.count_eq_zero.2 hr]
  have h1 : "image=data:cache/".data.count ';' = 0 := by decide
  have h2 : "/".data.count ';' = 0 := by decide
  omega

theorem replString_count (payload : String) :
    ("image=" ++ encodeSemicolons payload).data.count ';' = 0 := by
  rw [String.data_append, List.count_append]
  have h1 : "image=".data.count ';' = 0 := by decide
  have h2 := List.count_eq_zero.2 (encodeSemicolons_no_semicolon payload)
  omega

/-- C7: a resolved cache reference is substituted as image= followed by
the payload with every occurrence of the reserved semicolon separator
percent-encoded: the encoded payload contains no semicolon, replacing
the first occurrence of the search string yields exactly the
surrounding text around image= and the encoded payload, and the
substitution never changes the number of semicolons of the document
text, so no unescaped separator is introduced into the style attribute
value. -/
theorem cache_substitution_encodes_separators :
    (∀ payload : String, ';' ∉ (encodeSemicolons payload).data) ∧
    (∀ (xml key region payload : String),
      ';' ∉ key.data → ';' ∉ region.data →
      (replaceFirst xml (cacheSearchStr key region)
        ("image=" ++ encodeSemicolons payload)).data.count ';' = xml.data.count ';') ∧
    (∀ (pre post : List Char) (key region payload : String),
      (∀ i, i < pre.length →
        (cacheSearchStr key region).data.isPrefixOf
          (List.drop i (pre ++ (cacheSearchStr key region).data ++ post)) = false) →
      replaceFirst ⟨pre ++ (cacheSearchStr key region).data ++ post⟩
          (cacheSearchStr key region) ("image=" ++ encodeSemicolons payload) =
        ⟨pre ++ ("image=" ++ encodeSemicolons payload).data ++ post⟩) ∧
    substituteMatch [("r1", "data:image/png;base64,AA")] "k1"
        "<mxCell style=\"shape=image;image=data:cache/k1/r1;\"/>" ("k1", "r1") =
      "<mxCell style=\"shape=image;image=data:image/png%3Bbase64,AA;\"/>" := by
  refine ⟨encodeSemicolons_no_semicolon, ?_, ?_, by decide⟩
  · intro xml key region payload hk hr
    exact replaceFirstList_count (cacheSearchStr key region).data
      ("image=" ++ encodeSemicolons payload).data
      (cacheSearchStr_count key region hk hr) (replString_count payload) xml.data
  · intro pre post key region payload hocc
    show (⟨replaceFirstList (cacheSearchStr key region).data
      ("image=" ++ encodeSemicolons payload).data (pre ++ (cacheSearchStr key region).data ++ post)⟩ : String) = _
    rw [replaceFirstList_at_first (cacheSearchStr key region).data
      ("image=" ++ encodeSemicolons payload).data (cacheSearchStr_ne_nil key region) pre post hocc]

/-- C8 counterexample: with one resolvable and one unresolvable
reference to the same cache key, the caller-visible result of
display_diagram is the plain success outcome carrying the document
with the unresolvable reference left in place verbatim; no list of
unresolved-reference diagnostics exists anywhere in the result, so the
claim that the final result reports one diagnostic per unresolved
occurrence is false on this input. -/
theorem resolver_no_unresolved_diagnostics_counterexample :
    handleDisplayDiagram exStore (fun _ => none) exTwoRefXml =
      ("", ToolOutput.displayed (wrapWithMxFile exTwoRefResolved)) ∧
    resolveCacheRefs exStore exTwoRefXml = exTwoRefResolved ∧
    replaceFirst exTwoRefResolved (cacheSearchStr "k1" "r2") "" ≠ exTwoRefResolved := by
  exact ⟨by decide, by decide, by decide⟩

/-- C8 (amended): region resolution substitutes every resolvable
reference and leaves unresolvable ones in place without failing the
document: the handler always proceeds to wrapping and validation of
the resolved text, and on the two-reference example the resolvable
region is substituted with its percent-encoded payload, the
unresolvable one stays verbatim, and the document is displayed
successfully; however no unresolved-reference diagnostics are reported
to the caller (failures are only logged). -/
theorem resolver_partial_tolerance :
    (∀ (store : RegionStore) (validate : String → Option String) (xml : String),
      isMxCellXmlComplete (resolveCacheRefs store xml) = true →
      handleDisplayDiagram store validate xml =
        (match validate (wrapWithMxFile (resolveCacheRefs store xml)) with
          | some err =>
            ("", ToolOutput.validationError (wrapWithMxFile (resolveCacheRefs store xml)) err)
          | none => ("", ToolOutput.displayed (wrapWithMxFile (resolveCacheRefs store xml))))) ∧
    resolveCacheRefs exStore exTwoRefXml = exTwoRefResolved ∧
    handleDisplayDiagram exStore (fun _ => none) exTwoRefXml =
      ("", ToolOutput.displayed (wrapWithMxFile exTwoRefResolved)) := by
  refine ⟨?_, by decide, by decide⟩
  intro store validate xml hc
  cases hv : validate (wrapWithMxFile (resolveCacheRefs store xml)) <;>
    simp [handleDisplayDiagram, hc, hv]
